import Mathlib

/-!
Verification development for the TermPhoenix HTML content-extraction core
(`src/termphoenix/parser/html_parser.py` and `src/termphoenix/parser/models.py`).

Python strings are modelled as `List Char` (`Str`).  The BeautifulSoup parse
tree is modelled by the post-filtering view the extraction code actually
consumes: a `Soup` record holding the title text, the `meta` elements, the
anchor elements carrying an `href` attribute, the `img` alt attribute values,
the text nodes (each with its ancestor tag-name chain, nearest first), and the
raw flattened text.  Attribute values that BeautifulSoup may return either as a
single string or as a list of strings are modelled by `AttrVal`.

Character-class notes: Python `str.strip()` / `str.split()` use Unicode
whitespace; we model the ASCII fragment (space, tab, CR, LF, VT, FF), which is
exact on ASCII inputs.  The regex class `\w` is modelled by ASCII letters,
digits and underscore, matching the specification's reading of word
characters.
-/

abbrev Str := List Char

/-- Python whitespace test used by `str.strip()` and `str.split()`
(ASCII fragment: space, tab, CR, LF, vertical tab, form feed). -/
def pyWs (c : Char) : Bool :=
  c.isWhitespace || c = '\x0b' || c = '\x0c'

/-- Word character for the regex class `\w`: letter, digit or underscore. -/
def wordChar (c : Char) : Bool :=
  c.isAlphanum || c = '_'

/-- Sentence-terminating punctuation from the regex `[.!?]+`. -/
def sentencePunct (c : Char) : Bool :=
  c = '.' || c = '!' || c = '?'

/-- Python `str.strip()`: remove leading and trailing whitespace. -/
def pyStrip (l : Str) : Str :=
  (l.dropWhile pyWs).rdropWhile pyWs

/-- Maximal runs of characters on which `p` is false, empty runs dropped.
This is the semantics of Python `str.split()` (for `p` = whitespace) and of
`re.split` on the character class `p` followed by dropping empty pieces. -/
def chunksAux (p : Char → Bool) : Str → Str → List Str
  | [], acc => if acc = [] then [] else [acc.reverse]
  | c :: rest, acc =>
    if p c then
      (if acc = [] then chunksAux p rest [] else acc.reverse :: chunksAux p rest [])
    else
      chunksAux p rest (c :: acc)

/-- Python `text.split()` with no separator argument: maximal runs of
non-whitespace characters. -/
def py_split_whitespace (t : Str) : List Str :=
  chunksAux pyWs t []

/-- The regex substitution `re.sub(r"^[^\w]+|[^\w]+$", "", word)` from
`HTMLParser._clean_word` and `HTMLParser._split_text_into_words`: delete the
maximal leading run and the maximal trailing run of non-word characters.
(The inputs this program feeds it are whitespace-free words, on which the
two-sided trim is exactly the substitution's effect.) -/
def clean_word (w : Str) : Str :=
  (w.dropWhile (fun c => !wordChar c)).rdropWhile (fun c => !wordChar c)

/-- `HTMLParser._split_text_into_words`: split on whitespace, strip each raw
word with `clean_word`, drop words that become empty. -/
def split_text_into_words (text : Str) : List Str :=
  (py_split_whitespace text).filterMap fun w =>
    let cleaned := clean_word w
    if cleaned = [] then none else some cleaned

/-- `HTMLParser._split_into_sentences`: `re.split(r"[.!?]+", text)`, then strip
each piece and keep the non-empty ones.  `re.split` on a collapsed class run
produces the maximal runs of non-terminator characters (plus empty pieces at
the ends, which the subsequent filter removes), so it is `chunksAux`. -/
def split_into_sentences (text : Str) : List Str :=
  ((chunksAux sentencePunct text []).map pyStrip).filter (fun s => decide (s ≠ []))

/-- `models.EmphasisType`: closed enumeration of emphasis categories. -/
inductive EmphasisType where
  | BOLD
  | ITALIC
  | UNDERLINE
  | HEADER
  | LINK_TEXT
  | STRONG
  | EMPHASIS
  | CODE
  | BLOCKQUOTE
deriving DecidableEq

/-- `HTMLParser.EMPHASIS_TAGS`: the tag-name-to-category dispatch table. -/
def EMPHASIS_TAGS (nm : String) : Option EmphasisType :=
  match nm with
  | "b" => some EmphasisType.BOLD
  | "strong" => some EmphasisType.STRONG
  | "i" => some EmphasisType.ITALIC
  | "em" => some EmphasisType.EMPHASIS
  | "u" => some EmphasisType.UNDERLINE
  | "code" => some EmphasisType.CODE
  | "h1" => some EmphasisType.HEADER
  | "h2" => some EmphasisType.HEADER
  | "h3" => some EmphasisType.HEADER
  | "h4" => some EmphasisType.HEADER
  | "h5" => some EmphasisType.HEADER
  | "h6" => some EmphasisType.HEADER
  | "a" => some EmphasisType.LINK_TEXT
  | "blockquote" => some EmphasisType.BLOCKQUOTE
  | _ => none

/-- `HTMLParser._get_node_emphasis`: walk the parent chain of a text node
(nearest ancestor first), adding the table's category for each ancestor, with
the special case that a `title` ancestor adds `HEADER`. -/
def get_node_emphasis (parents : List String) : Finset EmphasisType :=
  parents.foldl
    (fun s nm =>
      match EMPHASIS_TAGS nm with
      | some e => insert e s
      | none => if nm = "title" then insert EmphasisType.HEADER s else s)
    ∅

/-- `HTMLParser._get_element_emphasis`: walk starting from the element itself
(its own tag name first, then its ancestors), adding the table's category for
each visited element.  This walk has no `title` special case. -/
def get_element_emphasis (name : String) (parents : List String) : Finset EmphasisType :=
  (name :: parents).foldl
    (fun s nm =>
      match EMPHASIS_TAGS nm with
      | some e => insert e s
      | none => s)
    ∅

/-- `models.TextToken`: one word-level unit of extracted text. -/
structure TextToken where
  text : Str
  cleaned_text : Str
  emphasis : Finset EmphasisType
  position : Nat
  paragraph_position : Nat
  sentence_position : Nat
  is_capitalized : Bool
  is_sentence_start : Bool
  parent_tags : List String
  text_group_id : Nat
deriving DecidableEq

/-- `models.LinkInfo`: one extracted hyperlink. -/
structure LinkInfo where
  url : Str
  text : Str
  is_internal : Bool
  emphasis : Finset EmphasisType
deriving DecidableEq

/-- `models.ParsedPage`: aggregate result of one parse call. The
`emphasis_stats` dict, built with every `EmphasisType` as key, is a total
function. -/
structure ParsedPage where
  url : Str
  title : Str
  meta_description : Option Str
  plain_text : Str
  tokens : List TextToken
  links : List LinkInfo
  emphasis_stats : EmphasisType → Nat
  word_count : Nat
  image_alt_texts : List Str

/-- The `ParsedPage` dataclass constructor followed by
`ParsedPage.__post_init__`: whatever values are supplied for
`emphasis_stats` and `word_count`, `__post_init__` overwrites them with the
per-category token counts and the token-list length. -/
def mkParsedPage (url title : Str) (meta_description : Option Str)
    (plain_text : Str) (tokens : List TextToken) (links : List LinkInfo)
    (emphasis_stats0 : EmphasisType → Nat) (word_count0 : Nat)
    (image_alt_texts : List Str) : ParsedPage :=
  { url := url
    title := title
    meta_description := meta_description
    plain_text := plain_text
    tokens := tokens
    links := links
    emphasis_stats := fun e => tokens.countP (fun t => decide (e ∈ t.emphasis))
    word_count := tokens.length
    image_alt_texts := image_alt_texts }

/-- A BeautifulSoup attribute value: a plain string or a multi-valued list. -/
inductive AttrVal where
  | s (v : Str)
  | l (vs : List Str)
deriving DecidableEq

/-- One text node of the filtered tree: its raw string content and its chain
of ancestor tag names, nearest first (as walked through `.parent` links). -/
structure TextNode where
  text : Str
  parents : List String

/-- One `meta` element: its `name`, `property` and `content` attributes. -/
structure MetaTag where
  name : Option Str
  property : Option Str
  content : Option AttrVal
deriving DecidableEq

/-- One anchor (`a`) element carrying an `href` attribute, as returned by
`soup.find_all("a", href=True)`: the attribute value, the flattened text
content (`get_text()`), and the anchor's own ancestor chain, nearest first. -/
structure Anchor where
  href : AttrVal
  rawText : Str
  parents : List String

/-- The post-filtering view of the parse tree that the extraction helpers
consume. `rawText` models `soup.get_text(separator=" ", strip=True)`. -/
structure Soup where
  titleText : Option Str
  metas : List MetaTag
  anchors : List Anchor
  imgAlts : List (Option AttrVal)
  textNodes : List TextNode
  rawText : Str

/-- `HTMLParser._extract_title`: text of the first `title` element, stripped;
empty string when the document has none. -/
def extract_title (soup : Soup) : Str :=
  match soup.titleText with
  | some t => pyStrip t
  | none => []

/-- Python `" ".join(items)`. -/
def joinSpace (items : List Str) : Str :=
  List.intercalate [' '] items

/-- The element filter of `soup.find("meta", attrs={"name": "description"})`:
the `name` attribute equals the string `description`. -/
def meta_name_is_description (m : MetaTag) : Bool :=
  decide (m.name = some ("description").data)

/-- `HTMLParser._extract_meta_description`: find the first `meta` element with
`name == "description"`; if it has a truthy `content` attribute, return it
stripped (a list value is joined with single spaces first); otherwise `None`.
A falsy content attribute (empty string, empty list) falls through to `None`
because of the `if content:` test. -/
def extract_meta_description (metas : List MetaTag) : Option Str :=
  match metas.find? meta_name_is_description with
  | some m =>
    match m.content with
    | some (AttrVal.s v) => if v = [] then none else some (pyStrip v)
    | some (AttrVal.l vs) => if vs = [] then none else some (pyStrip (joinSpace vs))
    | none => none
  | none => none

/-- `HTMLParser._extract_image_alt_texts`: per `img`, skip a missing `alt`;
strip a string value; for a list value strip each part, join with single
spaces, strip; keep only non-empty results. -/
def extract_image_alt_texts (imgAlts : List (Option AttrVal)) : List Str :=
  imgAlts.filterMap fun altVal =>
    match altVal with
    | none => none
    | some (AttrVal.s v) =>
      let alt := pyStrip v
      if alt = [] then none else some alt
    | some (AttrVal.l vs) =>
      let alt := pyStrip (joinSpace (vs.map pyStrip))
      if alt = [] then none else some alt

/-- Coercion of an `href` attribute value to a single string, from the body of
`HTMLParser._extract_links`: a string passes through, a non-empty list yields
its first element, and the empty list falls to the `str(href_value)` fallback,
which in Python renders `[]` as the two-character string `[]`. -/
def href_str (v : AttrVal) : Str :=
  match v with
  | AttrVal.s h => h
  | AttrVal.l (x :: _) => x
  | AttrVal.l [] => ('[') :: (']') :: []

/-- Scheme characters allowed after the first (`urllib.parse`). -/
def schemeChar (c : Char) : Bool :=
  c.isAlpha || c.isDigit || c = '+' || c = '-' || c = '.'

/-- Model of `urllib.parse` scheme detection: a leading alphabetic character
followed by scheme characters and a colon.  Returns the scheme (lowercased,
as `urlsplit` does) and the remainder after the colon. -/
def splitScheme (u : Str) : Option (Str × Str) :=
  match h : u.takeWhile schemeChar with
  | [] => none
  | c :: s =>
    if c.isAlpha then
      match u.dropWhile schemeChar with
      | ':' :: rest => some ((c :: s).map Char.toLower, rest)
      | _ => none
    else none

/-- Character ending the network-location component. -/
def netlocEnd (c : Char) : Bool :=
  c = '/' || c = '?' || c = '#'

/-- Model of `urllib.parse.urlparse(u).netloc`: the component between `//`
(after an optional scheme) and the next `/`, `?` or `#`; empty when the URL
has no `//`. -/
def urlparse_netloc (u : Str) : Str :=
  let rest := match splitScheme u with
    | some p => p.2
    | none => u
  match rest with
  | '/' :: '/' :: r => r.takeWhile (fun c => !netlocEnd c)
  | _ => []

/-- Path component of an after-scheme remainder (used for relative merging). -/
def restPath (rest : Str) : Str :=
  match rest with
  | '/' :: '/' :: r => r.dropWhile (fun c => !netlocEnd c)
  | _ => rest

/-- Directory prefix of a path: everything up to and including the last `/`
(`urllib` merge step for plain relative references). -/
def dirOf (path : Str) : Str :=
  (path.rdropWhile (fun c => c ≠ '/'))

/-- Model of `urllib.parse.urljoin` restricted to the reference shapes this
program resolves: absolute references with a scheme, protocol-relative (`//`)
references, root-relative (`/...`) references, and plain relative paths
(merged against the base path's directory).  Dot-segment normalization and
query/fragment splitting are not modelled; no claim exercises them. -/
def urljoin (base url : Str) : Str :=
  if url = [] then base
  else if base = [] then url
  else
    match splitScheme base with
    | none => url
    | some (bscheme, brest) =>
      let joinRest : Str → Str := fun urest =>
        match urest with
        | '/' :: '/' :: r => bscheme ++ (':' :: '/' :: '/' :: r)
        | '/' :: r => bscheme ++ (':' :: '/' :: '/' :: []) ++ urlparse_netloc base ++ ('/' :: r)
        | r =>
          bscheme ++ (':' :: '/' :: '/' :: []) ++ urlparse_netloc base
            ++ (let d := dirOf (restPath brest); if d = [] then '/' :: r else d ++ r)
      match splitScheme url with
      | some (uscheme, urest) =>
        if uscheme = bscheme then joinRest urest else url
      | none => joinRest url

/-- `HTMLParser._extract_links`: for every anchor with an `href` attribute,
coerce the attribute to a string, skip it when empty, strip the anchor text,
resolve the href against the base URL, classify internal versus external by
exact equality of the resolved and base network locations, and compute the
anchor's own emphasis with the element walk. -/
def extract_links (anchors : List Anchor) (base_url : Str) : List LinkInfo :=
  let base_domain := urlparse_netloc base_url
  anchors.filterMap fun a =>
    let href := href_str a.href
    if href = [] then none
    else
      let link_text := pyStrip a.rawText
      let absolute_url := urljoin base_url href
      let target_domain := urlparse_netloc absolute_url
      some
        { url := absolute_url
          text := link_text
          is_internal := decide (target_domain = base_domain)
          emphasis := get_element_emphasis ("a") a.parents }

/-- Build one `TextToken`, as in the loop body of
`HTMLParser._extract_text_tokens`. -/
def token_of (word : Str) (emphasis : Finset EmphasisType)
    (parents : List String) (sentence_index word_index pos gid : Nat) : TextToken :=
  let cleaned := clean_word word
  { text := word
    cleaned_text := cleaned
    emphasis := emphasis
    position := pos
    paragraph_position := word_index
    sentence_position := word_index
    is_capitalized := match cleaned with
      | [] => false
      | c :: _ => c.isUpper
    is_sentence_start := decide (word_index = 0 ∧ sentence_index = 0)
    parent_tags := parents
    text_group_id := gid }

/-- Inner word loop of `_extract_text_tokens` (`for word_index, word in
enumerate(words)`); returns the produced tokens and the next absolute
position.  The `if not word: continue` guard advances the enumeration index
without producing a token. -/
def proc_words (em : Finset EmphasisType) (pts : List String)
    (si gid : Nat) : List Str → Nat → Nat → List TextToken × Nat
  | [], _, pos => ([], pos)
  | w :: ws, wi, pos =>
    if w = [] then proc_words em pts si gid ws (wi + 1) pos
    else
      let t := token_of w em pts si wi pos gid
      let r := proc_words em pts si gid ws (wi + 1) (pos + 1)
      (t :: r.1, r.2)

/-- Sentence loop of `_extract_text_tokens` (`for sentence_index, sentence in
enumerate(sentences)`). -/
def proc_sentences (em : Finset EmphasisType) (pts : List String)
    (gid : Nat) : List Str → Nat → Nat → List TextToken × Nat
  | [], _, pos => ([], pos)
  | s :: ss, si, pos =>
    let r1 := proc_words em pts si gid (split_text_into_words s) 0 pos
    let r2 := proc_sentences em pts gid ss (si + 1) r1.2
    (r1.1 ++ r2.1, r2.2)

/-- Node loop of `_extract_text_tokens`; the state is the token accumulator,
the absolute position counter and the `text_group_id` counter.  A node whose
content is empty or whitespace-only is skipped by `continue` before any state
changes; otherwise its sentences and words are tokenized and afterwards
`text_group_id` is incremented exactly once. -/
def proc_nodes : List TextNode → Nat → Nat → List TextToken × Nat × Nat
  | [], pos, gid => ([], pos, gid)
  | n :: ns, pos, gid =>
    let text := pyStrip n.text
    if text = [] then proc_nodes ns pos gid
    else
      let em := get_node_emphasis n.parents
      let r1 := proc_sentences em n.parents gid (split_into_sentences text) 0 pos
      let r2 := proc_nodes ns r1.2 (gid + 1)
      (r1.1 ++ r2.1, r2.2)

/-- `HTMLParser._extract_text_tokens`: walk the document's text nodes with the
position counter and the group-id counter both starting at zero. -/
def extract_text_tokens (nodes : List TextNode) : List TextToken :=
  (proc_nodes nodes 0 0).1

/-- `HTMLParser._extract_plain_text`: `get_text`, collapse whitespace runs to
single spaces, strip. -/
def extract_plain_text (soup : Soup) : Str :=
  pyStrip (joinSpace (py_split_whitespace soup.rawText))

/-- `HTMLParser.parse_html`.  The `try` body is modelled by the `some` case:
extraction over the filtered tree, aggregated by the dataclass constructor
(`__post_init__` included).  The `except Exception` handler — reached when
anything in the body raises — is the `none` case: it returns the degraded
page built from the literal arguments of the handler (empty title, empty
string meta description, empty text, empty sequences), again finalized by
`__post_init__`. -/
def parse_html (tree : Option Soup) (page_url : Str) : ParsedPage :=
  match tree with
  | some soup =>
    mkParsedPage page_url (extract_title soup)
      (extract_meta_description soup.metas)
      (extract_plain_text soup)
      (extract_text_tokens soup.textNodes)
      (extract_links soup.anchors page_url)
      (fun _ => 0) 0
      (extract_image_alt_texts soup.imgAlts)
  | none =>
    mkParsedPage page_url []
      (some [])
      []
      []
      []
      (fun _ => 0) 0
      []

/-- Concrete page URL used by the example theorems. -/
def url1 : Str := ("https://example.com").data

/-- Concrete parse tree for `<p>Star Trek: NCC-1701 and BSG-75</p>`: one text
node whose ancestor chain is the paragraph, body, html and document root. -/
def soup1 : Soup :=
  { titleText := none
    metas := []
    anchors := []
    imgAlts := []
    textNodes := [{ text := ("Star Trek: NCC-1701 and BSG-75").data,
                    parents := ["p", "body", "html", "[document]"] }]
    rawText := ("Star Trek: NCC-1701 and BSG-75").data }

/-- The first token produced by parsing `soup1`. -/
def tok1 : TextToken :=
  { text := ("Star").data
    cleaned_text := ("Star").data
    emphasis := ∅
    position := 0
    paragraph_position := 0
    sentence_position := 0
    is_capitalized := true
    is_sentence_start := true
    parent_tags := ["p", "body", "html", "[document]"]
    text_group_id := 0 }

/-- The single token produced by tokenizing the text node `hi` with the
group-id counter at 5. -/
def tok2 : TextToken :=
  { text := ("hi").data
    cleaned_text := ("hi").data
    emphasis := ∅
    position := 0
    paragraph_position := 0
    sentence_position := 0
    is_capitalized := false
    is_sentence_start := true
    parent_tags := ["p"]
    text_group_id := 5 }

/-- The link produced for `<a href="/page2">x</a>` on the page `url1`. -/
def lnk1 : LinkInfo :=
  { url := ("https://example.com/page2").data
    text := ("x").data
    is_internal := true
    emphasis := {EmphasisType.LINK_TEXT} }

/-! ## Word-cleaning lemmas -/

theorem rdropWhile_append_rtakeWhile {α : Type} (p : α → Bool) (l : List α) :
    l.rdropWhile p ++ l.rtakeWhile p = l := by
  rw [List.rdropWhile, List.rtakeWhile, ← List.reverse_append,
    List.takeWhile_append_dropWhile, List.reverse_reverse]

theorem mem_rtakeWhile_imp {α : Type} {p : α → Bool} {l : List α} {x : α}
    (hx : x ∈ l.rtakeWhile p) : p x := by
  rw [List.rtakeWhile, List.mem_reverse] at hx
  exact List.mem_takeWhile_imp hx

theorem clean_word_decomp (w : Str) :
    ∃ pre suf, w = pre ++ clean_word w ++ suf ∧
      (∀ c ∈ pre, wordChar c = false) ∧ (∀ c ∈ suf, wordChar c = false) := by
  refine ⟨w.takeWhile (fun c => !wordChar c),
    (w.dropWhile (fun c => !wordChar c)).rtakeWhile (fun c => !wordChar c), ?_, ?_, ?_⟩
  · rw [clean_word, List.append_assoc, rdropWhile_append_rtakeWhile,
      List.takeWhile_append_dropWhile]
  · intro c hc
    have := List.mem_takeWhile_imp hc
    simpa using this
  · intro c hc
    have := mem_rtakeWhile_imp hc
    simpa using this

theorem clean_word_head {w : Str} {c : Char}
    (h : (clean_word w).head? = some c) : wordChar c = true := by
  rcases hc : clean_word w with _ | ⟨a, as⟩
  · rw [hc] at h
    exact absurd h (by simp)
  · rw [hc] at h
    have hac : c = a := by
      simpa using h.symm
    subst hac
    have hpre : (clean_word w) <+: (w.dropWhile (fun c => !wordChar c)) :=
      List.rdropWhile_prefix _ _
    rw [hc] at hpre
    obtain ⟨t, ht⟩ := hpre
    have hne : w.dropWhile (fun c => !wordChar c) ≠ [] := by
      rw [← ht]
      simp
    have hhd := List.head_dropWhile_not (fun c => !wordChar c) w hne
    have h1 : (w.dropWhile (fun c => !wordChar c)).head? = some c := by
      rw [← ht]
      rfl
    have h2 : (w.dropWhile (fun c => !wordChar c)).head? =
        some ((w.dropWhile (fun c => !wordChar c)).head hne) :=
      List.head?_eq_head hne
    have hhead : (w.dropWhile (fun c => !wordChar c)).head hne = c :=
      (Option.some_inj.mp (h2.symm.trans h1))
    rw [hhead] at hhd
    simpa using hhd

theorem clean_word_getLast {w : Str} {c : Char}
    (h : (clean_word w).getLast? = some c) : wordChar c = true := by
  have hne : clean_word w ≠ [] := by
    intro hnil
    rw [hnil] at h
    exact absurd h (by simp)
  have hlast : ¬(!wordChar ((clean_word w).getLast hne)) = true :=
    List.rdropWhile_last_not (fun c => !wordChar c)
      (w.dropWhile (fun c => !wordChar c)) hne
  have hgl : (clean_word w).getLast hne = c := by
    have hq := List.getLast?_eq_getLast (clean_word w) hne
    rw [hq] at h
    exact (Option.some_inj.mp h)
  rw [hgl] at hlast
  simpa using hlast

theorem clean_word_idem (w : Str) : clean_word (clean_word w) = clean_word w := by
  rcases hc : clean_word w with _ | ⟨a, as⟩
  · rfl
  · have ha : wordChar a = true := clean_word_head (w := w) (by rw [hc]; rfl)
    show List.rdropWhile _ (List.dropWhile _ (a :: as)) = a :: as
    rw [List.dropWhile_cons]
    simp only [ha, Bool.not_true, Bool.false_eq_true, if_false]
    rw [← hc]
    exact List.rdropWhile_idempotent _ _

theorem mem_split_words_iff (s w : Str) :
    w ∈ split_text_into_words s ↔
      w ≠ [] ∧ ∃ w0, w0 ∈ py_split_whitespace s ∧ w = clean_word w0 := by
  unfold split_text_into_words
  rw [List.mem_filterMap]
  constructor
  · rintro ⟨w0, h0, hf⟩
    simp only at hf
    by_cases hcl : clean_word w0 = []
    · rw [if_pos hcl] at hf
      exact absurd hf (by simp)
    · rw [if_neg hcl] at hf
      obtain rfl := Option.some_inj.mp hf
      exact ⟨hcl, w0, h0, rfl⟩
  · rintro ⟨hw, w0, h0, rfl⟩
    exact ⟨w0, h0, by simp [hw]⟩

theorem split_words_clean_fix {s w : Str} (h : w ∈ split_text_into_words s) :
    clean_word w = w ∧ w ≠ [] := by
  rcases (mem_split_words_iff s w).mp h with ⟨hw, w0, _, rfl⟩
  exact ⟨clean_word_idem w0, hw⟩

/-! ## Shape of produced tokens -/

theorem mem_proc_words {em : Finset EmphasisType} {pts : List String} {si gid : Nat}
    (ws : List Str) :
    ∀ (wi pos : Nat) (t : TextToken), t ∈ (proc_words em pts si gid ws wi pos).1 →
      ∃ w wi' pos', w ∈ ws ∧ w ≠ [] ∧ t = token_of w em pts si wi' pos' gid := by
  induction ws with
  | nil =>
    intro wi pos t ht
    simp [proc_words] at ht
  | cons w ws ih =>
    intro wi pos t ht
    by_cases hw : w = []
    · rw [proc_words, if_pos hw] at ht
      obtain ⟨w', wi', pos', hmem, hne, heq⟩ := ih (wi + 1) pos t ht
      exact ⟨w', wi', pos', List.mem_cons_of_mem _ hmem, hne, heq⟩
    · rw [proc_words, if_neg hw] at ht
      rcases List.mem_cons.mp ht with h | h
      · exact ⟨w, wi, pos, List.mem_cons_self _ _, hw, h⟩
      · obtain ⟨w', wi', pos', hmem, hne, heq⟩ := ih (wi + 1) (pos + 1) t h
        exact ⟨w', wi', pos', List.mem_cons_of_mem _ hmem, hne, heq⟩

theorem mem_proc_sentences {em : Finset EmphasisType} {pts : List String} {gid : Nat}
    (ss : List Str) :
    ∀ (si pos : Nat) (t : TextToken), t ∈ (proc_sentences em pts gid ss si pos).1 →
      ∃ s w si' wi' pos', s ∈ ss ∧ w ∈ split_text_into_words s ∧ w ≠ [] ∧
        t = token_of w em pts si' wi' pos' gid := by
  induction ss with
  | nil =>
    intro si pos t ht
    simp [proc_sentences] at ht
  | cons s ss ih =>
    intro si pos t ht
    rw [proc_sentences] at ht
    rcases List.mem_append.mp ht with h | h
    · obtain ⟨w, wi', pos', hmem, hne, heq⟩ := mem_proc_words _ 0 pos t h
      exact ⟨s, w, si, wi', pos', List.mem_cons_self _ _, hmem, hne, heq⟩
    · obtain ⟨s', w, si', wi', pos', hs, hmem, hne, heq⟩ := ih (si + 1) _ t h
      exact ⟨s', w, si', wi', pos', List.mem_cons_of_mem _ hs, hmem, hne, heq⟩

theorem mem_proc_nodes (ns : List TextNode) :
    ∀ (pos gid : Nat) (t : TextToken), t ∈ (proc_nodes ns pos gid).1 →
      ∃ n s w si' wi' pos' gid', n ∈ ns ∧
        s ∈ split_into_sentences (pyStrip n.text) ∧ w ∈ split_text_into_words s ∧ w ≠ [] ∧
        t = token_of w (get_node_emphasis n.parents) n.parents si' wi' pos' gid' := by
  induction ns with
  | nil =>
    intro pos gid t ht
    simp [proc_nodes] at ht
  | cons n ns ih =>
    intro pos gid t ht
    rw [proc_nodes] at ht
    by_cases hb : pyStrip n.text = []
    · rw [if_pos hb] at ht
      obtain ⟨n', s, w, si', wi', pos', gid', hn, hs, hw, hne, heq⟩ := ih pos gid t ht
      exact ⟨n', s, w, si', wi', pos', gid', List.mem_cons_of_mem _ hn, hs, hw, hne, heq⟩
    · rw [if_neg hb] at ht
      simp only at ht
      rcases List.mem_append.mp ht with h | h
      · obtain ⟨s, w, si', wi', pos', hs, hmem, hne, heq⟩ := mem_proc_sentences _ 0 pos t h
        exact ⟨n, s, w, si', wi', pos', gid, List.mem_cons_self _ _, hs, hmem, hne, heq⟩
      · obtain ⟨n', s, w, si', wi', pos', gid', hn, hs, hw, hne, heq⟩ := ih _ _ t h
        exact ⟨n', s, w, si', wi', pos', gid', List.mem_cons_of_mem _ hn, hs, hw, hne, heq⟩

theorem token_of_props {w : Str} (hfix : clean_word w = w) (hne : w ≠ [])
    (em : Finset EmphasisType) (pts : List String) (si wi pos gid : Nat) :
    (token_of w em pts si wi pos gid).text = (token_of w em pts si wi pos gid).cleaned_text ∧
    ∃ c cs, (token_of w em pts si wi pos gid).cleaned_text = c :: cs ∧
      (token_of w em pts si wi pos gid).is_capitalized = c.isUpper := by
  rcases w with _ | ⟨c, cs⟩
  · exact absurd rfl hne
  · refine ⟨?_, c, cs, ?_, ?_⟩
    · show c :: cs = clean_word (c :: cs)
      exact hfix.symm
    · show clean_word (c :: cs) = c :: cs
      exact hfix
    · show (match clean_word (c :: cs) with
        | [] => false
        | c :: _ => c.isUpper) = c.isUpper
      rw [hfix]

theorem parse_token_shape (tree : Option Soup) (url : Str) (t : TextToken)
    (ht : t ∈ (parse_html tree url).tokens) :
    t.text = t.cleaned_text ∧
      ∃ c cs, t.cleaned_text = c :: cs ∧ t.is_capitalized = c.isUpper := by
  rcases tree with _ | soup
  · simp [parse_html, mkParsedPage] at ht
  · have ht' : t ∈ extract_text_tokens soup.textNodes := ht
    obtain ⟨n, s, w, si', wi', pos', gid', _, _, hw, hne, heq⟩ :=
      mem_proc_nodes soup.textNodes 0 0 t ht'
    obtain ⟨hfix, -⟩ := split_words_clean_fix hw
    subst heq
    exact token_of_props hfix hne _ _ _ _ _ _

/-! ## Claim C8: edge stripping of raw words -/

/-- C8: every raw word obtained by whitespace-splitting a sentence is stripped
of a maximal leading run and a maximal trailing run of non-word characters
(letters, digits and underscore are word characters) with the interior kept
verbatim; words that become empty are dropped, and every surviving word is the
stripped form of some raw word.  Parsing the page
`<p>Star Trek: NCC-1701 and BSG-75</p>` yields exactly the token texts
`Star`, `Trek`, `NCC-1701`, `and`, `BSG-75`, with the hyphenated words kept
as single tokens. -/
theorem split_words_strip_spec :
    (∀ w : Str, ∃ pre suf, w = pre ++ clean_word w ++ suf ∧
        (∀ c ∈ pre, wordChar c = false) ∧ (∀ c ∈ suf, wordChar c = false)) ∧
    (∀ w : Str, (∀ c, (clean_word w).head? = some c → wordChar c = true) ∧
        (∀ c, (clean_word w).getLast? = some c → wordChar c = true)) ∧
    (∀ s w : Str, w ∈ split_text_into_words s ↔
        w ≠ [] ∧ ∃ w0, w0 ∈ py_split_whitespace s ∧ w = clean_word w0) ∧
    ((parse_html (some soup1) url1).tokens.map (fun t => t.text) =
      [("Star").data, ("Trek").data, ("NCC-1701").data, ("and").data, ("BSG-75").data]) := by
  refine ⟨clean_word_decomp, ?_, mem_split_words_iff, by decide⟩
  intro w
  exact ⟨fun c h => clean_word_head h, fun c h => clean_word_getLast h⟩

/-- Witness for C8: instantiates the edge-stripping properties at the raw word
`--NCC-1701!!`, whose cleaning yields `NCC-1701` with word-character ends, and
discharges the membership characterization on a concrete sentence. -/
theorem split_words_strip_spec_witness :
    wordChar ('N') = true ∧
    (("NCC-1701").data ∈ split_text_into_words (("--NCC-1701!!").data)) :=
  ⟨(split_words_strip_spec.2.1 (("--NCC-1701!!").data)).1 ('N') (by decide),
   (split_words_strip_spec.2.2.1 (("--NCC-1701!!").data) (("NCC-1701").data)).mpr
     ⟨by decide, ("--NCC-1701!!").data, by decide, by decide⟩⟩

/-! ## Claim C9: text equals cleaned_text -/

/-- C9: for every token of every page returned by a parse call, the `text`
field equals the `cleaned_text` field: the word splitter already applies the
edge-stripping substitution, and `_clean_word` reapplies the same idempotent
substitution. -/
theorem parse_tokens_text_eq_cleaned (tree : Option Soup) (url : Str)
    (t : TextToken) (ht : t ∈ (parse_html tree url).tokens) :
    t.text = t.cleaned_text :=
  (parse_token_shape tree url t ht).1

/-- Witness for C9: the first token of the `soup1` parse. -/
theorem parse_tokens_text_eq_cleaned_witness : tok1.text = tok1.cleaned_text :=
  parse_tokens_text_eq_cleaned (some soup1) url1 tok1 (by decide)

/-! ## Claim C10: cleaned_text is never empty -/

/-- C10: every token of every page returned by a parse call has a non-empty
`cleaned_text` (words that strip to empty are dropped before a token is
built), and `is_capitalized` is exactly the uppercase test of its actually
existing first character, so the empty-string fallback is unreachable. -/
theorem parse_tokens_cleaned_nonempty (tree : Option Soup) (url : Str)
    (t : TextToken) (ht : t ∈ (parse_html tree url).tokens) :
    t.cleaned_text ≠ [] ∧
      ∃ c cs, t.cleaned_text = c :: cs ∧ t.is_capitalized = c.isUpper := by
  obtain ⟨-, c, cs, hc, hcap⟩ := parse_token_shape tree url t ht
  exact ⟨by rw [hc]; exact List.cons_ne_nil c cs, c, cs, hc, hcap⟩

/-- Witness for C10: the first token of the `soup1` parse. -/
theorem parse_tokens_cleaned_nonempty_witness :
    tok1.cleaned_text ≠ [] ∧
      ∃ c cs, tok1.cleaned_text = c :: cs ∧ tok1.is_capitalized = c.isUpper :=
  parse_tokens_cleaned_nonempty (some soup1) url1 tok1 (by decide)

/-! ## Position lemmas -/

theorem range'_append_nat (s m n : Nat) :
    List.range' s m ++ List.range' (s + m) n = List.range' s (m + n) := by
  have h := List.range'_append s m n 1
  rw [Nat.one_mul] at h
  rw [Nat.add_comm n m] at h
  exact h

theorem proc_words_spec {em : Finset EmphasisType} {pts : List String} {si gid : Nat}
    (ws : List Str) :
    ∀ (wi pos : Nat),
      ((proc_words em pts si gid ws wi pos).1.map (fun t => t.position) =
        List.range' pos (proc_words em pts si gid ws wi pos).1.length) ∧
      (proc_words em pts si gid ws wi pos).2 =
        pos + (proc_words em pts si gid ws wi pos).1.length := by
  induction ws with
  | nil =>
    intro wi pos
    simp [proc_words]
  | cons w ws ih =>
    intro wi pos
    by_cases hw : w = []
    · rw [proc_words, if_pos hw]
      exact ih (wi + 1) pos
    · rw [proc_words, if_neg hw]
      simp only [List.map_cons, List.length_cons]
      obtain ⟨ih1, ih2⟩ := ih (wi + 1) (pos + 1)
      constructor
      · rw [List.range'_succ]
        refine congrArg (fun l => _ :: l) ?_ |>.trans rfl |>.symm |>.symm
        rw [ih1]
      · rw [ih2]
        omega

theorem proc_sentences_spec {em : Finset EmphasisType} {pts : List String} {gid : Nat}
    (ss : List Str) :
    ∀ (si pos : Nat),
      ((proc_sentences em pts gid ss si pos).1.map (fun t => t.position) =
        List.range' pos (proc_sentences em pts gid ss si pos).1.length) ∧
      (proc_sentences em pts gid ss si pos).2 =
        pos + (proc_sentences em pts gid ss si pos).1.length := by
  induction ss with
  | nil =>
    intro si pos
    simp [proc_sentences]
  | cons s ss ih =>
    intro si pos
    rw [proc_sentences]
    simp only [List.map_append, List.length_append]
    obtain ⟨h1, h2⟩ := @proc_words_spec em pts si gid (split_text_into_words s) 0 pos
    obtain ⟨ih1, ih2⟩ := ih (si + 1) (proc_words em pts si gid (split_text_into_words s) 0 pos).2
    constructor
    · rw [h1, ih1, h2, range'_append_nat]
    · rw [ih2, h2]
      omega

theorem proc_nodes_spec (ns : List TextNode) :
    ∀ (pos gid : Nat),
      ((proc_nodes ns pos gid).1.map (fun t => t.position) =
        List.range' pos (proc_nodes ns pos gid).1.length) ∧
      (proc_nodes ns pos gid).2.1 = pos + (proc_nodes ns pos gid).1.length := by
  induction ns with
  | nil =>
    intro pos gid
    simp [proc_nodes]
  | cons n ns ih =>
    intro pos gid
    by_cases hb : pyStrip n.text = []
    · rw [proc_nodes, if_pos hb]
      exact ih pos gid
    · rw [proc_nodes, if_neg hb]
      simp only [List.map_append, List.length_append]
      obtain ⟨h1, h2⟩ := @proc_sentences_spec (get_node_emphasis n.parents)
        n.parents gid (split_into_sentences (pyStrip n.text)) 0 pos
      obtain ⟨ih1, ih2⟩ := ih
        (proc_sentences (get_node_emphasis n.parents) n.parents gid
          (split_into_sentences (pyStrip n.text)) 0 pos).2 (gid + 1)
      constructor
      · rw [h1, ih1, h2, range'_append_nat]
      · rw [ih2, h2]
        omega

/-! ## Claim C3: positions form a contiguous zero-based range -/

/-- C3: for every page returned by a parse call, the `position` fields of its
tokens, read in sequence order, are exactly `0, 1, ..., word_count - 1`:
strictly increasing, contiguous, no gaps, no duplicates. -/
theorem parse_tokens_positions (tree : Option Soup) (url : Str) :
    (parse_html tree url).tokens.map (fun t => t.position) =
      List.range ((parse_html tree url).word_count) := by
  rcases tree with _ | soup
  · rfl
  · show (extract_text_tokens soup.textNodes).map (fun t => t.position) =
      List.range (extract_text_tokens soup.textNodes).length
    rw [List.range_eq_range']
    exact (proc_nodes_spec soup.textNodes 0 0).1

/-! ## Group-id lemmas and Claim C5 -/

theorem proc_words_gid {em : Finset EmphasisType} {pts : List String} {si gid : Nat}
    (ws : List Str) :
    ∀ (wi pos : Nat) (t : TextToken), t ∈ (proc_words em pts si gid ws wi pos).1 →
      t.text_group_id = gid := by
  intro wi pos t ht
  obtain ⟨w, wi', pos', _, _, heq⟩ := mem_proc_words ws wi pos t ht
  subst heq
  rfl

theorem proc_sentences_gid {em : Finset EmphasisType} {pts : List String} {gid : Nat}
    (ss : List Str) :
    ∀ (si pos : Nat) (t : TextToken), t ∈ (proc_sentences em pts gid ss si pos).1 →
      t.text_group_id = gid := by
  intro si pos t ht
  obtain ⟨s, w, si', wi', pos', _, _, _, heq⟩ := mem_proc_sentences ss si pos t ht
  subst heq
  rfl

theorem proc_nodes_gid_count (ns : List TextNode) :
    ∀ (pos gid : Nat), (proc_nodes ns pos gid).2.2 =
      gid + ns.countP (fun n => decide (pyStrip n.text ≠ [])) := by
  induction ns with
  | nil =>
    intro pos gid
    simp [proc_nodes]
  | cons n ns ih =>
    intro pos gid
    rw [List.countP_cons]
    by_cases hb : pyStrip n.text = []
    · rw [proc_nodes, if_pos hb, ih pos gid]
      simp [hb]
    · rw [proc_nodes, if_neg hb]
      simp only
      rw [ih _ (gid + 1)]
      have hd : (decide (pyStrip n.text ≠ [])) = true := by
        simp [hb]
      rw [hd]
      simp only [if_true]
      omega

theorem proc_nodes_append (ns ms : List TextNode) :
    ∀ (pos gid : Nat),
      proc_nodes (ns ++ ms) pos gid =
        ((proc_nodes ns pos gid).1 ++
          (proc_nodes ms (proc_nodes ns pos gid).2.1 (proc_nodes ns pos gid).2.2).1,
         (proc_nodes ms (proc_nodes ns pos gid).2.1 (proc_nodes ns pos gid).2.2).2) := by
  induction ns with
  | nil =>
    intro pos gid
    simp [proc_nodes]
  | cons n ns ih =>
    intro pos gid
    by_cases hb : pyStrip n.text = []
    · rw [List.cons_append, proc_nodes, if_pos hb, ih pos gid, proc_nodes, if_pos hb]
    · rw [List.cons_append, proc_nodes, if_neg hb]
      simp only
      rw [ih]
      conv_rhs => rw [proc_nodes, if_neg hb]
      simp [List.append_assoc]

theorem proc_nodes_single_gid (n : TextNode) (pos gid : Nat) (t : TextToken)
    (ht : t ∈ (proc_nodes [n] pos gid).1) : t.text_group_id = gid := by
  rw [proc_nodes] at ht
  by_cases hb : pyStrip n.text = []
  · rw [if_pos hb] at ht
    simp [proc_nodes] at ht
  · rw [if_neg hb] at ht
    simp only [proc_nodes, List.append_nil] at ht
    exact proc_sentences_gid _ 0 pos t ht

/-- C5: tokens originating from one text node all carry the same
`text_group_id`, and the group-id counter advances exactly once per processed
text node — a node whose content is non-empty after trimming — regardless of
how many sentences or words (including zero) that node yields, never once per
sentence or per word; nodes that are empty or whitespace-only are skipped by
`continue` before the increment, leaving all counters unchanged.  Stated as:
(1) a skipped node changes nothing; (2) the final counter is the start value
plus the number of processed nodes, independent of token production; (3) the
walk decomposes over concatenation, threading the counters; (4) every token
of a single node's walk is stamped with the counter value current at that
node. -/
theorem text_group_id_per_node :
    (∀ (n : TextNode) (ns : List TextNode) (pos gid : Nat), pyStrip n.text = [] →
      proc_nodes (n :: ns) pos gid = proc_nodes ns pos gid) ∧
    (∀ (ns : List TextNode) (pos gid : Nat),
      (proc_nodes ns pos gid).2.2 =
        gid + ns.countP (fun n => decide (pyStrip n.text ≠ []))) ∧
    (∀ (ns ms : List TextNode) (pos gid : Nat),
      proc_nodes (ns ++ ms) pos gid =
        ((proc_nodes ns pos gid).1 ++
          (proc_nodes ms (proc_nodes ns pos gid).2.1 (proc_nodes ns pos gid).2.2).1,
         (proc_nodes ms (proc_nodes ns pos gid).2.1 (proc_nodes ns pos gid).2.2).2)) ∧
    (∀ (n : TextNode) (pos gid : Nat) (t : TextToken),
      t ∈ (proc_nodes [n] pos gid).1 → t.text_group_id = gid) := by
  refine ⟨?_, proc_nodes_gid_count, proc_nodes_append, proc_nodes_single_gid⟩
  intro n ns pos gid hb
  rw [proc_nodes, if_pos hb]

/-- Witness for C5: skipping a whitespace-only node changes nothing, and the
token produced from the node `hi` while the counter stands at 5 is stamped
with group id 5. -/
theorem text_group_id_per_node_witness :
    (proc_nodes [{ text := ("   ").data, parents := ["p"] },
        { text := ("hi").data, parents := ["p"] }] 0 0 =
      proc_nodes [{ text := ("hi").data, parents := ["p"] }] 0 0) ∧
    tok2.text_group_id = 5 :=
  ⟨text_group_id_per_node.1 { text := ("   ").data, parents := ["p"] }
      [{ text := ("hi").data, parents := ["p"] }] 0 0 (by decide),
   text_group_id_per_node.2.2.2 { text := ("hi").data, parents := ["p"] } 0 5 tok2
      (by decide)⟩

/-! ## Claim C1: the degraded page of the exception handler -/

/-- C1 counterexample: the degraded page built by the `except` handler passes
`meta_description=""`, so its meta description is the present empty string,
not an absent value. -/
theorem parse_degraded_meta_not_absent :
    (parse_html none url1).meta_description = some [] ∧
    (parse_html none url1).meta_description ≠ none := by
  decide

/-- C1 (amended): when the extraction raises, the parse call returns the
degraded page with empty title, meta description equal to the present empty
string (not absent), empty plain text, empty token, link and alt-text
sequences, zero word count and all emphasis counts zero, keeping the caller's
page URL. -/
theorem parse_degraded_fields (url : Str) :
    (parse_html none url).title = [] ∧
    (parse_html none url).meta_description = some [] ∧
    (parse_html none url).plain_text = [] ∧
    (parse_html none url).tokens = [] ∧
    (parse_html none url).links = [] ∧
    (parse_html none url).image_alt_texts = [] ∧
    (parse_html none url).word_count = 0 ∧
    (∀ e, (parse_html none url).emphasis_stats e = 0) ∧
    (parse_html none url).url = url :=
  ⟨rfl, rfl, rfl, rfl, rfl, rfl, rfl, fun _ => rfl, rfl⟩

/-! ## Claim C4: derived statistics -/

/-- C4: for every `ParsedPage`, `word_count` equals the length of `tokens` and
each emphasis count equals the number of tokens whose emphasis set contains
that category; the finalization derives both fields whatever values were
supplied at construction, and every page a parse call returns satisfies the
two laws. -/
theorem parsed_page_derived_stats :
    (∀ (url title : Str) (md : Option Str) (plain : Str) (tokens : List TextToken)
        (links : List LinkInfo) (stats0 : EmphasisType → Nat) (wc0 : Nat)
        (alts : List Str),
      (mkParsedPage url title md plain tokens links stats0 wc0 alts).word_count =
        (mkParsedPage url title md plain tokens links stats0 wc0 alts).tokens.length ∧
      ∀ e, (mkParsedPage url title md plain tokens links stats0 wc0 alts).emphasis_stats e =
        ((mkParsedPage url title md plain tokens links stats0 wc0 alts).tokens.filter
          (fun t => decide (e ∈ t.emphasis))).length) ∧
    (∀ (tree : Option Soup) (url : Str),
      (parse_html tree url).word_count = (parse_html tree url).tokens.length ∧
      ∀ e, (parse_html tree url).emphasis_stats e =
        ((parse_html tree url).tokens.filter (fun t => decide (e ∈ t.emphasis))).length) := by
  have hmk : ∀ (url title : Str) (md : Option Str) (plain : Str) (tokens : List TextToken)
      (links : List LinkInfo) (stats0 : EmphasisType → Nat) (wc0 : Nat) (alts : List Str),
      (mkParsedPage url title md plain tokens links stats0 wc0 alts).word_count =
        (mkParsedPage url title md plain tokens links stats0 wc0 alts).tokens.length ∧
      ∀ e, (mkParsedPage url title md plain tokens links stats0 wc0 alts).emphasis_stats e =
        ((mkParsedPage url title md plain tokens links stats0 wc0 alts).tokens.filter
          (fun t => decide (e ∈ t.emphasis))).length := by
    intro url title md plain tokens links stats0 wc0 alts
    exact ⟨rfl, fun e => List.countP_eq_length_filter _ _⟩
  refine ⟨hmk, ?_⟩
  intro tree url
  rcases tree with _ | soup
  · exact hmk url [] (some []) [] [] [] (fun _ => 0) 0 []
  · exact hmk url (extract_title soup) (extract_meta_description soup.metas)
      (extract_plain_text soup) (extract_text_tokens soup.textNodes)
      (extract_links soup.anchors url) (fun _ => 0) 0
      (extract_image_alt_texts soup.imgAlts)

/-! ## Claim C2: the two emphasis walks -/

theorem node_fold_mono (l : List String) :
    ∀ (s : Finset EmphasisType) (e : EmphasisType), e ∈ s →
      e ∈ l.foldl
        (fun s nm =>
          match EMPHASIS_TAGS nm with
          | some e' => insert e' s
          | none => if nm = "title" then insert EmphasisType.HEADER s else s)
        s := by
  induction l with
  | nil =>
    intro s e he
    simpa using he
  | cons nm l ih =>
    intro s e he
    rw [List.foldl_cons]
    apply ih
    rcases hE : EMPHASIS_TAGS nm with _ | e'
    · simp only [hE]
      by_cases ht : nm = "title"
      · rw [if_pos ht]
        exact Finset.mem_insert_of_mem he
      · rw [if_neg ht]
        exact he
    · simp only [hE]
      exact Finset.mem_insert_of_mem he

theorem node_fold_title (l : List String) :
    ∀ (s : Finset EmphasisType), ("title" : String) ∈ l →
      EmphasisType.HEADER ∈ l.foldl
        (fun s nm =>
          match EMPHASIS_TAGS nm with
          | some e' => insert e' s
          | none => if nm = "title" then insert EmphasisType.HEADER s else s)
        s := by
  induction l with
  | nil =>
    intro s hmem
    simp at hmem
  | cons nm l ih =>
    intro s hmem
    rw [List.foldl_cons]
    rcases List.mem_cons.mp hmem with h | h
    · subst h
      apply node_fold_mono
      simp only [EMPHASIS_TAGS, if_pos rfl]
      exact Finset.mem_insert_self _ _
    · exact ih _ h

theorem folds_eq_of_no_title (l : List String) :
    ∀ (s : Finset EmphasisType), ("title" : String) ∉ l →
      l.foldl
        (fun s nm =>
          match EMPHASIS_TAGS nm with
          | some e' => insert e' s
          | none => s)
        s =
      l.foldl
        (fun s nm =>
          match EMPHASIS_TAGS nm with
          | some e' => insert e' s
          | none => if nm = "title" then insert EmphasisType.HEADER s else s)
        s := by
  induction l with
  | nil =>
    intro s _
    rfl
  | cons nm l ih =>
    intro s hmem
    have hnm : nm ≠ "title" := fun h => hmem (h ▸ List.mem_cons_self _ _)
    have hl : ("title" : String) ∉ l := fun h => hmem (List.mem_cons_of_mem _ h)
    rw [List.foldl_cons, List.foldl_cons]
    rcases hE : EMPHASIS_TAGS nm with _ | e'
    · simp only [hE, if_neg hnm]
      exact ih _ hl
    · simp only [hE]
      exact ih _ hl

/-- C2 counterexample: for a node whose examined ancestor chain contains a
`title` element, the text-node walk adds `HEADER` while the element walk for
an anchor with the same chain does not — the two walks are not the same
algorithm on `title`. -/
theorem element_walk_title_differs :
    EmphasisType.HEADER ∈ get_node_emphasis ["title"] ∧
    EmphasisType.HEADER ∉ get_element_emphasis ("a") ["title"] := by
  decide

/-- C2 (amended): the two upward walks share the tag-to-category table and the
termination condition, and differ only in the starting node, but the
special-case addition of `HEADER` for a `title` ancestor exists only in the
text-node walk: the node walk always adds `HEADER` when `title` lies on its
chain, and whenever no `title` element lies on the examined chain the element
walk coincides with the node walk run on the element-extended chain. -/
theorem emphasis_walks_agree_outside_title :
    (∀ parents : List String, ("title" : String) ∈ parents →
      EmphasisType.HEADER ∈ get_node_emphasis parents) ∧
    (∀ (name : String) (parents : List String), ("title" : String) ∉ name :: parents →
      get_element_emphasis name parents = get_node_emphasis (name :: parents)) := by
  constructor
  · intro parents hmem
    exact node_fold_title parents ∅ hmem
  · intro name parents hmem
    exact folds_eq_of_no_title (name :: parents) ∅ hmem

/-- Witness for C2 (amended): a chain through `h1` and `title` gets `HEADER`
from the node walk, and on a title-free chain the element walk for an anchor
under `b` and `p` equals the node walk on the extended chain. -/
theorem emphasis_walks_agree_outside_title_witness :
    EmphasisType.HEADER ∈ get_node_emphasis ["h1", "title"] ∧
    get_element_emphasis ("a") ["b", "p"] = get_node_emphasis ["a", "b", "p"] :=
  ⟨emphasis_walks_agree_outside_title.1 ["h1", "title"] (by decide),
   emphasis_walks_agree_outside_title.2 ("a") ["b", "p"] (by decide)⟩

/-! ## Claim C6: internal/external link classification -/

/-- C6: every produced link is classified internal exactly when the network
location of its resolved URL equals the network location of the base URL
under plain string equality; resolving `/page2` against
`https://example.com` yields `https://example.com/page2` classified internal,
an absolute `https://external.com` href is classified external, and both a
`www.` subdomain and a differently-cased host count as external (no
normalization). -/
theorem link_is_internal_spec :
    (∀ (anchors : List Anchor) (base : Str) (l : LinkInfo), l ∈ extract_links anchors base →
      l.is_internal = decide (urlparse_netloc l.url = urlparse_netloc base)) ∧
    ((extract_links [⟨AttrVal.s (("/page2").data), ("x").data, ["body"]⟩] url1).map
      (fun l => (l.url, l.is_internal)) = [((("https://example.com/page2").data), true)]) ∧
    ((extract_links [⟨AttrVal.s (("https://external.com").data), ("x").data, ["body"]⟩] url1).map
      (fun l => (l.url, l.is_internal)) = [((("https://external.com").data), false)]) ∧
    ((extract_links [⟨AttrVal.s (("https://www.example.com/page2").data), ("x").data,
        ["body"]⟩] url1).map (fun l => l.is_internal) = [false]) ∧
    ((extract_links [⟨AttrVal.s (("https://EXAMPLE.com/page2").data), ("x").data,
        ["body"]⟩] url1).map (fun l => l.is_internal) = [false]) := by
  refine ⟨?_, by decide, by decide, by decide, by decide⟩
  intro anchors base l hl
  simp only [extract_links, List.mem_filterMap] at hl
  obtain ⟨a, _, hfa⟩ := hl
  by_cases h0 : href_str a.href = []
  · rw [if_pos h0] at hfa
    cases hfa
  · rw [if_neg h0] at hfa
    simp only [Option.some_inj] at hfa
    subst hfa
    rfl

/-- Witness for C6: the classification law instantiated at the concrete
`/page2` link of `url1`. -/
theorem link_is_internal_spec_witness :
    lnk1.is_internal = decide (urlparse_netloc lnk1.url = urlparse_netloc url1) :=
  link_is_internal_spec.1 [⟨AttrVal.s (("/page2").data), ("x").data, ["body"]⟩] url1 lnk1
    (by decide)

/-! ## Claim C7: meta description extraction -/

/-- C7 counterexample: a `meta` element with `name="description"` whose
`content` attribute is present but equal to the empty string yields an absent
meta description, because the code's `if content:` truthiness test rejects
empty values — contradicting the claim that absence occurs exactly when no
matching element exists or the content attribute is missing. -/
theorem meta_empty_content_absent :
    extract_meta_description [{ name := some ("description").data, property := none,
                                content := some (AttrVal.s []) }] = none ∧
    ({ name := some ("description").data, property := none,
       content := some (AttrVal.s []) } : MetaTag).content ≠ none := by
  decide

/-- C7 (amended): the meta description is taken only from a `meta` element
whose `name` attribute equals `description` (one carrying only
`property=og:description` is never matched); a found string content is
returned trimmed and a found list content is joined with single spaces and
trimmed; and the result is absent exactly when no matching element exists or
the matching element's `content` attribute is missing or empty (the empty
string or the empty list), empty values being rejected by the `if content:`
truthiness test. -/
theorem meta_description_spec :
    (∀ metas : List MetaTag, (∀ m ∈ metas, m.name ≠ some ("description").data) →
      extract_meta_description metas = none) ∧
    (∀ (metas : List MetaTag) (m : MetaTag) (v : Str),
      metas.find? meta_name_is_description = some m →
      m.content = some (AttrVal.s v) → v ≠ [] →
      extract_meta_description metas = some (pyStrip v)) ∧
    (∀ (metas : List MetaTag) (m : MetaTag) (vs : List Str),
      metas.find? meta_name_is_description = some m →
      m.content = some (AttrVal.l vs) → vs ≠ [] →
      extract_meta_description metas = some (pyStrip (joinSpace vs))) ∧
    (∀ metas : List MetaTag, extract_meta_description metas = none ↔
      (match metas.find? meta_name_is_description with
        | none => True
        | some m => m.content = none ∨ m.content = some (AttrVal.s []) ∨
            m.content = some (AttrVal.l []))) := by
  refine ⟨?_, ?_, ?_, ?_⟩
  · intro metas hall
    have hf : metas.find? meta_name_is_description = none := by
      rw [List.find?_eq_none]
      intro m hm
      simpa [meta_name_is_description] using hall m hm
    unfold extract_meta_description
    rw [hf]
  · intro metas m v hf hc hv
    unfold extract_meta_description
    rw [hf]
    dsimp only
    rw [hc]
    dsimp only
    rw [if_neg hv]
  · intro metas m vs hf hc hvs
    unfold extract_meta_description
    rw [hf]
    dsimp only
    rw [hc]
    dsimp only
    rw [if_neg hvs]
  · intro metas
    unfold extract_meta_description
    rcases hf : metas.find? meta_name_is_description with _ | m
    · simp
    · rcases hc : m.content with _ | v
      · simp [hc]
      · rcases v with v | vs
        · by_cases hv : v = []
          · subst hv
            simp [hc]
          · simp [hc, hv]
        · by_cases hvs : vs = []
          · subst hvs
            simp [hc]
          · simp [hc, hvs]

/-- Witness for C7 (amended): a lone `og:description` meta yields an absent
description, and a matching element with non-empty content yields it
trimmed. -/
theorem meta_description_spec_witness :
    extract_meta_description [{ name := none, property := some ("og:description").data,
                                content := some (AttrVal.s ("x").data) }] = none ∧
    extract_meta_description [{ name := some ("description").data, property := none,
                                content := some (AttrVal.s (" A test page for parsing ").data) }] =
      some (pyStrip (" A test page for parsing ").data) :=
  ⟨meta_description_spec.1 _ (by decide),
   meta_description_spec.2.1 _
     { name := some ("description").data, property := none,
       content := some (AttrVal.s (" A test page for parsing ").data) }
     ((" A test page for parsing ").data) (by decide) rfl (by decide)⟩
